import Mathlib

/-
Verification of the ixdat core against its natural-language specification.

The definitions below are a shallow embedding of the relevant parts of the
repository:
  * src/ixdat/spectra.py            (Spectrum and its Field wrapping)
  * src/ixdat/readers/zilien.py     (the Zilien TSV reader / stitcher)
  * src/ixdat/techniques/cv.py      (the cycle-segmentation scan)

Numeric data is embedded over `Int` (the code only compares, copies and
groups values; no claim depends on floating-point rounding), missing values
(NaN cells of the parsed matrix) over `Option Int`, and Python exceptions as
an explicit error type returned through `Except`.  Stateful code (the reader
cache, the in-place list mutation of `Spectrum.data_objects`) is embedded as
explicit state passing.
-/

set_option maxHeartbeats 1000000

namespace IxdatSpec

/-! ## Embedding of src/ixdat/spectra.py -/

namespace Spectra

/-- `DataSeries` as used by `Spectrum`: a named, unit-tagged numeric sequence. -/
structure DataSeries where
  name : String
  unit_name : String
  data : List Int
deriving DecidableEq

/-- `TimeSeries`: a `DataSeries` carrying the absolute epoch offset `tstamp`. -/
structure TimeSeries where
  name : String
  unit_name : String
  data : List Int
  tstamp : Int
deriving DecidableEq

/-- An axis of a `Field` is either a plain `DataSeries` or a `TimeSeries`. -/
inductive AxSeries where
  | dser (s : DataSeries)
  | tser (s : TimeSeries)
deriving DecidableEq

/-- The `data` attribute shared by both kinds of axis series. -/
def AxSeries.data : AxSeries → List Int
  | .dser s => s.data
  | .tser s => s.data

/-- `Field`: an N-axis numeric array (here 2-D, row-major as a list of rows)
with one axis series per axis. -/
structure Field where
  name : String
  unit_name : String
  data : List (List Int)
  axes_series : List AxSeries
deriving DecidableEq

/-- The numpy shape of the 2-D `Field.data`: (number of rows, row length). -/
def Field.shape (f : Field) : List Nat :=
  [f.data.length, ((f.data[0]?).map List.length).getD 0]

/-- The lengths of the axis series of a `Field`, axis by axis. -/
def Field.axesLengths (f : Field) : List Nat :=
  f.axes_series.map (fun a => a.data.length)

/-- `Spectrum`: wraps one `Field` (already materialized). -/
structure Spectrum where
  name : String
  field : Field
deriving DecidableEq

/-- `Spectrum.from_field`: construct directly from a `Field`
(`name` defaults to the field's name). -/
def Spectrum.from_field (field : Field) : Spectrum :=
  ⟨field.name, field⟩

/-- `Spectrum.from_series`: synthesize the one-sample `TimeSeries` and wrap
both axes into a `Field` whose data is `np.array([yseries.data])`. -/
def Spectrum.from_series (xseries yseries : DataSeries) (tstamp : Int) : Spectrum :=
  let tseries : TimeSeries := ⟨"spectrum time / [s]", "s", [0], tstamp⟩
  let field : Field :=
    ⟨yseries.name, yseries.unit_name, [yseries.data],
     [AxSeries.dser xseries, AxSeries.tser tseries]⟩
  Spectrum.from_field field

/-- `Spectrum.from_data`: the raw-data convenience path; wraps x and y into
`DataSeries` and delegates to `from_series`. -/
def Spectrum.from_data (x y : List Int) (tstamp : Int)
    (x_name y_name x_unit_name y_unit_name : String) : Spectrum :=
  let xseries : DataSeries := ⟨x_name, x_unit_name, x⟩
  let yseries : DataSeries := ⟨y_name, y_unit_name, y⟩
  Spectrum.from_series xseries yseries tstamp

/-- `spec.xseries`: the first axis series of the field (`none` models the
`IndexError` on a malformed field). -/
def Spectrum.xser (s : Spectrum) : Option AxSeries := s.field.axes_series[0]?

/-- `spec.x`: the data of the first axis series. -/
def Spectrum.x (s : Spectrum) : Option (List Int) := s.xser.map AxSeries.data

/-- `spec.y`: `field.data[0]`. -/
def Spectrum.y (s : Spectrum) : Option (List Int) := s.field.data[0]?

/-- `spec.tstamp`: `tseries.data[0] + tseries.tstamp` where `tseries` is the
second axis series (`none` models the exception when the field is malformed). -/
def Spectrum.tstamp (s : Spectrum) : Option Int :=
  match s.field.axes_series[1]? with
  | some (AxSeries.tser ts) => (ts.data[0]?).map (fun d => d + ts.tstamp)
  | _ => none

/-- A reference held in a field's `axes_series` list: either one of the
original axis series or the `Field` object itself (which
`Spectrum.data_objects` appends to the list it aliases). -/
inductive ObjRef where
  | axisSeries (i : Nat)
  | fieldSelf
deriving DecidableEq

/-- The mutable state of a spectrum's field that `data_objects` touches:
its `axes_series` Python list. -/
structure FieldState where
  axes_series : List ObjRef
deriving DecidableEq

/-- `Spectrum.data_objects`: `series_list = self.field.axes_series` binds the
very list object, `series_list.append(self.field)` mutates it in place, and
the mutated list is returned.  Embedded as explicit state passing. -/
def data_objects (st : FieldState) : List ObjRef × FieldState :=
  let series_list := st.axes_series ++ [ObjRef.fieldSelf]
  (series_list, ⟨series_list⟩)

end Spectra

/-! ## The reader-instance cache of ZilienTSVReader.read -/

namespace Reader

/-- The reader-instance state relevant to the read cache: `_path_to_file` and
`_measurement`, both `None` on a fresh instance.  `μ` is the type of the
measurement payload. -/
structure ReaderState (μ : Type) where
  path_to_file : Option String
  measurement : Option μ

/-- `ZilienTSVReader.read`: if `self._path_to_file` is already set, the stored
measurement is returned unchanged (no parsing happens); otherwise the file is
parsed (abstracted as `parse`) and both cache fields are set.  Embedded as
explicit state passing; `parse` stands for the whole parsing pipeline. -/
def reader_read {μ : Type} (parse : String → μ) (st : ReaderState μ) (path : String) :
    Option μ × ReaderState μ :=
  match st.path_to_file with
  | some _ => (st.measurement, st)
  | none =>
    let m := parse path
    (some m, ⟨some path, some m⟩)

end Reader

/-! ## Embedding of src/ixdat/readers/zilien.py -/

namespace Zilien

/-- The Python exception types raised by the three error sites the spec
groups under `FormatError`: `TypeError` (parse_metadata_line, unknown type
tag), `ValueError` (_create_series_objects, value column before its block's
time column) and `ReadError` (ZilienSpectrumReader.read, no mass column). -/
inductive PyExc where
  | typeError
  | valueError
  | readError
deriving DecidableEq

/-- A typed metadata value as produced by the type coercion in
`parse_metadata_line`. -/
inductive MetaValue where
  | str (v : String)
  | intv (v : Int)
  | dblv (v : Rat)
  | boolv (v : Bool)
deriving DecidableEq

/-- Model of Python `float()` on the plain decimal literals that occur in
Zilien metadata: an optional sign, an integer part and an optional fractional
part; anything else fails (Python raises `ValueError`). -/
def parseDecimal? (s : String) : Option Rat :=
  match s.toInt? with
  | some i => some (i : Rat)
  | none =>
    match s.splitOn (".") with
    | [ip, fp] =>
      match ip.toInt?, fp.toNat? with
      | some i, some f =>
        let den : Nat := 10 ^ fp.length
        let mag : Rat := ((i.natAbs * den + f : Nat) : Rat) / (den : Rat)
        some (if i < 0 || ip.startsWith ("-") then -mag else mag)
      | _, _ => none
    | _ => none

/-- `parse_metadata_line`, after the 5-field tab split: qualify the name with
`attach_to_series` when present and coerce the value by the type tag; an
unknown tag raises `TypeError` (the code's literal behavior — not the
`FormatError` the spec names). -/
def parse_metadata_line (name _comment attach_to_series type_as_str value : String) :
    Except PyExc (String × MetaValue) :=
  let full_name := if attach_to_series ≠ "" then attach_to_series ++ "_" ++ name else name
  if type_as_str = "string" then Except.ok (full_name, MetaValue.str value)
  else if type_as_str = "int" then
    match value.toInt? with
    | some i => Except.ok (full_name, MetaValue.intv i)
    | none => Except.error PyExc.valueError
  else if type_as_str = "double" then
    match parseDecimal? value with
    | some q => Except.ok (full_name, MetaValue.dblv q)
    | none => Except.error PyExc.valueError
  else if type_as_str = "bool" then Except.ok (full_name, MetaValue.boolv (value == "true"))
  else Except.error PyExc.typeError

/-! ### _get_series_splits (the tabular block parser) -/

/-- The indices of the non-empty cells of the series-header row, in order
(the first loop of `_get_series_splits`, starting the index at `k`). -/
def nonemptyIndicesAux : Nat → List String → List Nat
  | _, [] => []
  | k, h :: rest =>
    if h ≠ "" then k :: nonemptyIndicesAux (k + 1) rest
    else nonemptyIndicesAux (k + 1) rest

/-- The indices of the non-empty cells of the series-header row. -/
def nonemptyIndices (hs : List String) : List Nat := nonemptyIndicesAux 0 hs

/-- `zip_longest(indices, indices[1:])`: pair every index with its successor;
the last index is paired with `None`. -/
def zipLongestPairs : List Nat → List (Nat × Option Nat)
  | [] => []
  | [x] => [(x, none)]
  | x :: y :: rest => (x, some y) :: zipLongestPairs (y :: rest)

/-- `_get_series_splits`: the index pairs and the non-empty headers. -/
def get_series_splits (series_headers : List String) :
    List (Nat × Option Nat) × List String :=
  (zipLongestPairs (nonemptyIndices series_headers),
   series_headers.filter (fun h => h ≠ ""))

/-- The split pairs with `None` resolved to the row length `L`: a pair
`(begin, None)` is used as the Python slice `[begin:]`, i.e. `[begin:L]`,
on the L-column header row and data matrix. -/
def series_splits_resolved (series_headers : List String) : List (Nat × Nat) :=
  (get_series_splits series_headers).1.map
    (fun p => (p.1, p.2.getD series_headers.length))

/-! ### _get_biologic_splits (the foreign-sub-dataset row splitter) -/

/-- The composite run key per row over the first `count` rows:
`experiment_number * 1000 + technique_number`. -/
def splitVector (count : Nat) (expNums techNums : List Int) : List Int :=
  List.zipWith (fun e t => e * 1000 + t) (expNums.take count) (techNums.take count)

/-- The `itertools.groupby` accumulation of `_get_biologic_splits`: emit one
`(index, index + group_length)` pair per maximal contiguous run of equal
values, advancing `index` by each group's length.  Structural recursion on a
fuel argument (each group consumes at least one element, so any fuel of at
least the list length gives the untruncated result). -/
def biologicSplitsAux : Nat → Nat → List Int → List (Nat × Nat)
  | _, _, [] => []
  | 0, _, _ :: _ => []
  | fuel + 1, index, x :: xs =>
    (index, index + (xs.takeWhile (fun y => y == x)).length + 1) ::
      biologicSplitsAux fuel (index + (xs.takeWhile (fun y => y == x)).length + 1)
        (xs.drop ((xs.takeWhile (fun y => y == x)).length))

/-- `_get_biologic_splits`: index pairs of the maximal contiguous runs of the
key vector, in original row order. -/
def get_biologic_splits (technique_numbers : List Int) : List (Nat × Nat) :=
  biologicSplitsAux technique_numbers.length 0 technique_numbers

/-! ### Alias table: defaultdict(list) with `+=`, and the global overlay -/

/-- Reading a key from the `defaultdict(list)` alias table: the first entry
with that key, or `[]` when the key is absent. -/
def aliasGet : List (String × List String) → String → List String
  | [], _ => []
  | (k1, vs1) :: rest, k => if k1 = k then vs1 else aliasGet rest k

/-- `aliases[k] += vs` on the `defaultdict(list)`: extend the existing entry
in place, or insert a new entry at the end when the key is absent. -/
def aliasAppend : List (String × List String) → String → List String →
    List (String × List String)
  | [], k, vs => [(k, vs)]
  | (k1, vs1) :: rest, k, vs =>
    if k1 = k then (k1, vs1 ++ vs) :: rest
    else (k1, vs1) :: aliasAppend rest k vs

/-- The overlay loop of `ZilienTSVReader.read`:
`for standard_name, general_aliases in ZILIEN_ALIASES[cls].items():
   aliases[standard_name] += general_aliases`. -/
def mergeGlobal (blockAliases : List (String × List String))
    (globalTable : List (String × List String)) : List (String × List String) :=
  globalTable.foldl (fun t kv => aliasAppend t kv.1 kv.2) blockAliases

/-- `ZILIEN_EC_ALIASES`: the global default aliases used for the EC-MS and EC
measurement kinds. -/
def ZILIEN_EC_ALIASES : List (String × List String) :=
  [("t", ["Potential time [s]"]),
   ("raw_potential", ["Voltage [V]"]),
   ("raw_current", ["Current [mA]"]),
   ("cycle", ["Cycle [n]"])]

/-! ### _create_series_objects and the spectrum mass-column search -/

/-- A `TimeSeries` of the Zilien reader: matrix cells may be NaN
(`Option.none`). -/
structure TimeSeriesZ where
  name : String
  unit_name : String
  data : List (Option Int)
  tstamp : Int
deriving DecidableEq

/-- An ixdat series object produced by `_create_series_objects`. -/
inductive SeriesObj where
  | timeS (ts : TimeSeriesZ)
  | valueS (name unit_name : String) (data : List (Option Int)) (tseries : TimeSeriesZ)
deriving DecidableEq

/-- Column `j` of the row-major matrix slice (`data_rows_split[:, j]`). -/
def columnOf (rows : List (List (Option Int))) (j : Nat) : List (Option Int) :=
  rows.map (fun r => r.getD j none)

/-- The loop body of `_create_series_objects` over the enumerated column
headers: skip the structural EC-lab columns, skip all-NaN columns, build a
`TimeSeries` from a time-spelled column, and raise `ValueError` when a value
column arrives before the block's time column. -/
def create_series_objects_aux (tstamp : Int) (rows : List (List (Option Int)))
    (names_and_units : List (String × String × Option String)) :
    List String → Nat → Option TimeSeriesZ → Except PyExc (List SeriesObj)
  | [], _, _ => Except.ok []
  | ch :: rest, j, tsOpt =>
    if ch = "experiment_number" ∨ ch = "technique_number" then
      create_series_objects_aux tstamp rows names_and_units rest (j + 1) tsOpt
    else
      let col := columnOf rows j
      if col.all (fun o => o.isNone) then
        create_series_objects_aux tstamp rows names_and_units rest (j + 1) tsOpt
      else
        let nu := names_and_units.getD j ("", "", none)
        if ch = "Time [s]" ∨ ch = "time/s" then
          let ts : TimeSeriesZ := ⟨nu.1, nu.2.1, col, tstamp⟩
          match create_series_objects_aux tstamp rows names_and_units rest (j + 1) (some ts) with
          | Except.ok l => Except.ok (SeriesObj.timeS ts :: l)
          | Except.error e => Except.error e
        else
          match tsOpt with
          | none => Except.error PyExc.valueError
          | some ts =>
            match create_series_objects_aux tstamp rows names_and_units rest (j + 1) tsOpt with
            | Except.ok l => Except.ok (SeriesObj.valueS nu.1 nu.2.1 col ts :: l)
            | Except.error e => Except.error e

/-- `_create_series_objects` over a block's column headers, name/unit triples
and data rows. -/
def create_series_objects (tstamp : Int) (column_headers : List String)
    (names_and_units : List (String × String × Option String))
    (rows : List (List (Option Int))) : Except PyExc (List SeriesObj) :=
  create_series_objects_aux tstamp rows names_and_units column_headers 0 none

/-- `ZILIEN_MASS_COLUMN_NAMES` (note the double space in the first). -/
def ZILIEN_MASS_COLUMN_NAMES : List String := ["Mass  [AMU]", "Mass [AMU]"]

/-- The mass-axis column search of `ZilienSpectrumReader.read`: the for-else
loop takes the first recognized mass-column name present among the data-frame
columns and raises `ReadError` when none is. -/
def findMassColumn (columns : List String) : Except PyExc String :=
  match ZILIEN_MASS_COLUMN_NAMES.find? (fun n => columns.contains n) with
  | some n => Except.ok n
  | none => Except.error PyExc.readError

end Zilien

/-! ## Spec-side predicates for run partitions and column-range coverage -/

/-- The ranges are consecutive starting at `pos` and end exactly at `n`:
each `(b, e)` has `b` equal to the running position and is non-empty, and the
final position is `n`.  This is the "no gaps, no overlaps, in original
order" coverage property of the spec. -/
def coversInOrder (n : Nat) : List (Nat × Nat) → Nat → Bool
  | [], pos => pos == n
  | (b, e) :: rest, pos => b == pos && decide (pos < e) && coversInOrder n rest e

/-- All keys in the index range `[b, e)` equal the key at `b`. -/
def runConstantIn (keys : List Int) (b e : Nat) : Bool :=
  (List.range (e - b)).all (fun i => keys.getD (b + i) 0 == keys.getD b 0)

/-- Adjacent runs carry different keys: the key just before each interior
boundary differs from the key at the boundary. -/
def runsMaximal (keys : List Int) : List (Nat × Nat) → Bool
  | (_, e1) :: (b2, e2) :: rest =>
    !(keys.getD (e1 - 1) 0 == keys.getD b2 0) && runsMaximal keys ((b2, e2) :: rest)
  | _ => true

/-! ## Claims about spectra.py and the reader cache -/

open Spectra Reader

/-- Claim C6: for every x, y and tstamp, a Spectrum built via the raw-data
convenience path (`from_data`) and a Spectrum built directly from an
explicitly constructed Field with matching axes yield identical `x`, `y` and
`tstamp` views, namely `x`, `y` and `tstamp` themselves. -/
theorem C6_spectrum_construction_roundtrip
    (x y : List Int) (tstamp : Int) (xn yn xu yu fn fu tn tu : String) :
    (Spectrum.from_data x y tstamp xn yn xu yu).x = some x ∧
    (Spectrum.from_data x y tstamp xn yn xu yu).y = some y ∧
    (Spectrum.from_data x y tstamp xn yn xu yu).tstamp = some tstamp ∧
    (Spectrum.from_field
      ⟨fn, fu, [y],
       [AxSeries.dser ⟨xn, xu, x⟩, AxSeries.tser ⟨tn, tu, [0], tstamp⟩]⟩).x =
      (Spectrum.from_data x y tstamp xn yn xu yu).x ∧
    (Spectrum.from_field
      ⟨fn, fu, [y],
       [AxSeries.dser ⟨xn, xu, x⟩, AxSeries.tser ⟨tn, tu, [0], tstamp⟩]⟩).y =
      (Spectrum.from_data x y tstamp xn yn xu yu).y ∧
    (Spectrum.from_field
      ⟨fn, fu, [y],
       [AxSeries.dser ⟨xn, xu, x⟩, AxSeries.tser ⟨tn, tu, [0], tstamp⟩]⟩).tstamp =
      (Spectrum.from_data x y tstamp xn yn xu yu).tstamp := by
  refine ⟨rfl, rfl, ?_, rfl, rfl, ?_⟩ <;>
    simp [Spectrum.from_data, Spectrum.from_series, Spectrum.from_field, Spectrum.tstamp]

/-- Claim C7 (evaluation at the failing input): `from_data` with x of length 2
builds the Field with `data = np.array([y])`, whose shape is (1, 2), while the
axis series have lengths (2, 1).  The Field shape invariant
`data.shape[i] == len(axes[i].data)` therefore fails (1 ≠ 2), contradicting
both the claim and the module's own docstring, which promises y-data of shape
(N, 1). -/
theorem C7_field_shape_invariant_fails :
    (Spectrum.from_data [10, 20] [3, 4] 0 "m" "y" "u" "v").field.shape = [1, 2] ∧
    (Spectrum.from_data [10, 20] [3, 4] 0 "m" "y" "u" "v").field.axesLengths = [2, 1] ∧
    (Spectrum.from_data [10, 20] [3, 4] 0 "m" "y" "u" "v").field.shape ≠
      (Spectrum.from_data [10, 20] [3, 4] 0 "m" "y" "u" "v").field.axesLengths := by
  refine ⟨rfl, rfl, by decide⟩

/-- Claim C10: `Spectrum.data_objects` mutates the underlying field in place:
afterwards the field's `axes_series` list has the field itself appended as its
last element (and is the very list returned), and each successive call
returns a list one element longer than the previous call's result. -/
theorem C10_data_objects_mutates (st : FieldState) :
    (data_objects st).2.axes_series = st.axes_series ++ [ObjRef.fieldSelf] ∧
    (data_objects st).2.axes_series.getLast? = some ObjRef.fieldSelf ∧
    (data_objects st).1 = (data_objects st).2.axes_series ∧
    (data_objects (data_objects st).2).1.length = (data_objects st).1.length + 1 := by
  refine ⟨rfl, ?_, rfl, ?_⟩ <;> simp [data_objects]

/-- Claim C9: once a read has completed on a fresh reader instance, every
subsequent call to `read` — with any path and any parsing behavior — returns
the measurement produced by the first read and leaves the reader state
unchanged (no new parsing). -/
theorem C9_reader_read_cached {μ : Type} (parse parse2 : String → μ)
    (st0 : ReaderState μ) (p1 p2 : String) (hfresh : st0.path_to_file = none) :
    reader_read parse2 (reader_read parse st0 p1).2 p2 =
      ((reader_read parse st0 p1).1, (reader_read parse st0 p1).2) := by
  simp [reader_read, hfresh]

/-- Witness for C9 at a concrete fresh reader, with a second read that uses a
different path and a different parse result. -/
theorem C9_reader_read_cached_witness :
    reader_read (fun _ => (1 : Nat))
        (reader_read (fun _ => (0 : Nat)) ⟨none, none⟩ "a").2 "b" =
      ((reader_read (fun _ => (0 : Nat)) ⟨none, none⟩ "a").1,
       (reader_read (fun _ => (0 : Nat)) ⟨none, none⟩ "a").2) :=
  C9_reader_read_cached (fun _ => 0) (fun _ => 1) ⟨none, none⟩ "a" "b" rfl

/-! ## Claims about the alias merge (C8) -/

namespace Zilien

lemma aliasGet_aliasAppend (t : List (String × List String)) (k' : String)
    (vs : List String) (k : String) :
    aliasGet (aliasAppend t k' vs) k =
      if k = k' then aliasGet t k ++ vs else aliasGet t k := by
  induction t with
  | nil =>
    by_cases h : k = k'
    · subst h; simp [aliasAppend, aliasGet]
    · simp [aliasAppend, aliasGet, h, Ne.symm h]
  | cons a rest ih =>
    obtain ⟨k1, vs1⟩ := a
    by_cases h1 : k1 = k'
    · subst h1
      by_cases h2 : k1 = k
      · subst h2; simp [aliasAppend, aliasGet]
      · simp [aliasAppend, aliasGet, h2, Ne.symm h2]
    · by_cases h2 : k1 = k
      · subst h2
        simp [aliasAppend, aliasGet, h1, Ne.symm h1]
      · simp [aliasAppend, aliasGet, h1, h2, ih]

lemma aliasGet_mergeGlobal (g t : List (String × List String)) (k : String) :
    aliasGet (mergeGlobal t g) k =
      aliasGet t k ++ ((g.filter (fun p => p.1 == k)).map Prod.snd).flatten := by
  induction g generalizing t with
  | nil => simp [mergeGlobal]
  | cons a g' ih =>
    obtain ⟨k1, vs1⟩ := a
    have hstep : mergeGlobal t ((k1, vs1) :: g') = mergeGlobal (aliasAppend t k1 vs1) g' := rfl
    rw [hstep, ih, aliasGet_aliasAppend]
    by_cases h : k = k1
    · subst h; simp [List.filter_cons]
    · simp [List.filter_cons, h, Ne.symm h]

lemma filter_key_eq_nil (g : List (String × List String)) (k : String)
    (h : k ∉ g.map Prod.fst) : g.filter (fun p => p.1 == k) = [] := by
  induction g with
  | nil => rfl
  | cons a g' ih =>
    obtain ⟨k1, vs1⟩ := a
    simp only [List.map_cons, List.mem_cons, not_or] at h
    have hne : ¬(k1 = k) := fun hs => h.1 hs.symm
    simp [List.filter_cons, hne, ih h.2]

lemma flatten_filter_of_mem_nodup (g : List (String × List String)) (k : String)
    (gs : List String) (hmem : (k, gs) ∈ g) (hnodup : (g.map Prod.fst).Nodup) :
    ((g.filter (fun p => p.1 == k)).map Prod.snd).flatten = gs := by
  induction g with
  | nil => cases hmem
  | cons a g' ih =>
    obtain ⟨k1, vs1⟩ := a
    simp only [List.map_cons, List.nodup_cons] at hnodup
    obtain ⟨hk1, hnd⟩ := hnodup
    rcases List.mem_cons.mp hmem with heq | hmem'
    · injection heq with hk hv
      subst hk; subst hv
      simp [List.filter_cons, filter_key_eq_nil g' k hk1]
    · have hk1k : ¬(k1 = k) := by
        intro hs
        subst hs
        exact hk1 (List.mem_map.mpr ⟨(k1, gs), hmem', rfl⟩)
      simp only [List.filter_cons, beq_iff_eq, hk1k, if_neg, ite_false]
      exact ih hmem' hnd

end Zilien

open Zilien

/-- Claim C8: in the merged alias table, for every standardized name that
receives entries both from the block-derived aliases and from the global
default table of the requested measurement kind, the block-derived series
names come first and the global-default names are appended after them; and
for every name, the merge only ever extends (never removes or overwrites)
the block-derived entry. -/
theorem C8_alias_merge_order (t g : List (String × List String)) (k : String)
    (gs : List String) (hmem : (k, gs) ∈ g) (hnodup : (g.map Prod.fst).Nodup) :
    aliasGet (mergeGlobal t g) k = aliasGet t k ++ gs ∧
    ∀ k', ∃ tail, aliasGet (mergeGlobal t g) k' = aliasGet t k' ++ tail := by
  constructor
  · rw [aliasGet_mergeGlobal, flatten_filter_of_mem_nodup g k gs hmem hnodup]
  · intro k'
    exact ⟨_, aliasGet_mergeGlobal g t k'⟩

/-- Witness for C8: a block-derived "cycle" alias stays in front of the
global EC default "Cycle [n]" after the merge. -/
theorem C8_alias_merge_order_witness :
    aliasGet (mergeGlobal [("cycle", ["EC-lab cycle number/N"])] ZILIEN_EC_ALIASES)
      "cycle" = ["EC-lab cycle number/N", "Cycle [n]"] :=
  (C8_alias_merge_order [("cycle", ["EC-lab cycle number/N"])] ZILIEN_EC_ALIASES
    "cycle" ["Cycle [n]"] (by decide) (by decide)).1

/-! ## Claims about the error taxonomy (C3) -/

/-- Claim C3 (counterexample): the three error conditions are all fatal, but
they do NOT raise one uniform exception type: an unknown metadata type tag
raises `TypeError`, a value column before its block's time column raises
`ValueError`, and a spectrum file without a recognized mass-axis column
raises `ReadError` — three pairwise distinct exception types, so the claim's
single uniform `FormatError` is false on the code. -/
theorem C3_error_types_not_uniform :
    parse_metadata_line "x" "" "" "color" "1" = Except.error PyExc.typeError ∧
    create_series_objects 0 ["Voltage [V]"] [("Voltage [V]", "V", none)] [[some 1]] =
      Except.error PyExc.valueError ∧
    findMassColumn ["Current [A]"] = Except.error PyExc.readError ∧
    PyExc.typeError ≠ PyExc.valueError ∧
    PyExc.valueError ≠ PyExc.readError ∧
    PyExc.typeError ≠ PyExc.readError :=
  ⟨rfl, rfl, rfl, by decide, by decide, by decide⟩

/-- Claim C3 as amended: each of the three conditions — unknown metadata type
tag, value-type column before the block's time column, and missing mass-axis
column — deterministically raises an exception fatal to the read, but the
three sites use three distinct exception types (`TypeError`, `ValueError`,
`ReadError` respectively), not one uniform `FormatError`. -/
theorem C3_error_conditions_fatal :
    (∀ name c a ts v, ts ≠ "string" → ts ≠ "int" → ts ≠ "double" → ts ≠ "bool" →
      parse_metadata_line name c a ts v = Except.error PyExc.typeError) ∧
    (∀ (tstamp : Int) (rows : List (List (Option Int)))
        (nus : List (String × String × Option String)) (ch : String)
        (rest : List String),
      ch ≠ "experiment_number" → ch ≠ "technique_number" →
      (columnOf rows 0).all (fun o => o.isNone) = false →
      ch ≠ "Time [s]" → ch ≠ "time/s" →
      create_series_objects tstamp (ch :: rest) nus rows =
        Except.error PyExc.valueError) ∧
    (∀ columns : List String,
      "Mass  [AMU]" ∉ columns → "Mass [AMU]" ∉ columns →
      findMassColumn columns = Except.error PyExc.readError) := by
  refine ⟨?_, ?_, ?_⟩
  · intro name c a ts v hs hi hd hb
    simp [parse_metadata_line, hs, hi, hd, hb]
  · intro tstamp rows nus ch rest h1 h2 hcol h3 h4
    simp [create_series_objects, create_series_objects_aux, h1, h2, hcol, h3, h4]
  · intro columns h1 h2
    simp [findMassColumn, ZILIEN_MASS_COLUMN_NAMES, List.find?, h1, h2]

/-- Witness for the amended C3 at concrete inputs for all three conditions. -/
theorem C3_error_conditions_fatal_witness :
    parse_metadata_line "m" "" "" "color" "7" = Except.error PyExc.typeError ∧
    create_series_objects 1 ["Current [mA]"] [("Current [mA]", "mA", none)]
      [[some 2]] = Except.error PyExc.valueError ∧
    findMassColumn ["foo"] = Except.error PyExc.readError :=
  ⟨C3_error_conditions_fatal.1 "m" "" "" "color" "7"
      (by decide) (by decide) (by decide) (by decide),
   C3_error_conditions_fatal.2.1 1 [[some 2]] [("Current [mA]", "mA", none)]
      "Current [mA]" [] (by decide) (by decide) (by decide) (by decide) (by decide),
   C3_error_conditions_fatal.2.2 ["foo"] (by decide) (by decide)⟩

/-! ## Claims about _get_series_splits (C2) -/

namespace Zilien

lemma nonemptyIndicesAux_chain_bounds (hs : List String) :
    ∀ k : Nat, List.Chain' (· < ·) (nonemptyIndicesAux k hs) ∧
      ∀ x ∈ nonemptyIndicesAux k hs, k ≤ x ∧ x < k + hs.length := by
  induction hs with
  | nil => intro k; simp [nonemptyIndicesAux]
  | cons h rest ih =>
    intro k
    obtain ⟨ihc, ihb⟩ := ih (k + 1)
    by_cases hh : h = ""
    · rw [nonemptyIndicesAux, if_neg (by simp [hh])]
      refine ⟨ihc, fun x hx => ?_⟩
      have := ihb x hx
      simp only [List.length_cons]
      omega
    · rw [nonemptyIndicesAux, if_pos (by simp [hh])]
      constructor
      · rw [List.chain'_cons']
        refine ⟨fun y hy => ?_, ihc⟩
        have hmem : y ∈ nonemptyIndicesAux (k + 1) rest := List.mem_of_mem_head? hy
        have := ihb y hmem
        omega
      · intro x hx
        simp only [List.length_cons]
        rcases List.mem_cons.mp hx with rfl | hx'
        · omega
        · have := ihb x hx'
          omega

lemma mem_nonemptyIndicesAux (hs : List String) :
    ∀ (k x : Nat), x ∈ nonemptyIndicesAux k hs ↔
      ∃ j, j < hs.length ∧ x = k + j ∧ hs.getD j "" ≠ "" := by
  induction hs with
  | nil => intro k x; simp [nonemptyIndicesAux]
  | cons h rest ih =>
    intro k x
    by_cases hh : h = ""
    · rw [nonemptyIndicesAux, if_neg (by simp [hh])]
      rw [ih (k + 1) x]
      constructor
      · rintro ⟨j, hj, rfl, hne⟩
        exact ⟨j + 1, by simpa using hj, by omega, by simpa using hne⟩
      · rintro ⟨j, hj, rfl, hne⟩
        match j with
        | 0 => simp [hh, List.getD_cons_zero] at hne
        | j' + 1 =>
          exact ⟨j', by simpa using hj, by omega, by simpa using hne⟩
    · rw [nonemptyIndicesAux, if_pos (by simp [hh])]
      rw [List.mem_cons, ih (k + 1) x]
      constructor
      · rintro (rfl | ⟨j, hj, rfl, hne⟩)
        · exact ⟨0, by simp, by omega, by simpa using hh⟩
        · exact ⟨j + 1, by simpa using hj, by omega, by simpa using hne⟩
      · rintro ⟨j, hj, rfl, hne⟩
        match j with
        | 0 => exact Or.inl (by omega)
        | j' + 1 =>
          exact Or.inr ⟨j', by simpa using hj, by omega, by simpa using hne⟩

lemma zipLongestPairs_resolved_map_fst (L : Nat) :
    ∀ l : List Nat,
      ((zipLongestPairs l).map (fun p => (p.1, p.2.getD L))).map Prod.fst = l := by
  intro l
  induction l with
  | nil => rfl
  | cons x tail ih =>
    cases tail with
    | nil => rfl
    | cons y rest => simpa [zipLongestPairs] using ih

lemma coversInOrder_zipLongest (L : Nat) :
    ∀ l : List Nat, List.Chain' (· < ·) l → (∀ x ∈ l, x < L) →
      ∀ i0, l.head? = some i0 →
        coversInOrder L ((zipLongestPairs l).map (fun p => (p.1, p.2.getD L))) i0 = true := by
  intro l
  induction l with
  | nil => intro _ _ i0 h; cases h
  | cons x tail ih =>
    intro hc hb i0 hh
    have hx : i0 = x := by simpa using hh.symm
    subst hx
    cases tail with
    | nil =>
      have hxL : i0 < L := hb i0 (List.mem_singleton_self i0)
      simp [zipLongestPairs, coversInOrder, hxL]
    | cons y rest =>
      have hxy : i0 < y := (List.chain'_cons.mp hc).1
      have hc' : List.Chain' (· < ·) (y :: rest) := (List.chain'_cons.mp hc).2
      have hb' : ∀ z ∈ y :: rest, z < L := fun z hz => hb z (List.mem_cons_of_mem _ hz)
      have := ih hc' hb' y rfl
      simp [zipLongestPairs, coversInOrder, hxy, this]

end Zilien

/-- Claim C2 (counterexample): for the series-header row `["", "a"]` (length
L = 2) the returned column ranges are `[(1, 2)]`, which does NOT cover
`[0, L)`: column 0 belongs to no range, because the first range begins at
the first NON-EMPTY header index, not at 0. -/
theorem C2_leading_empty_header_uncovered :
    series_splits_resolved ["", "a"] = [(1, 2)] ∧
    coversInOrder 2 (series_splits_resolved ["", "a"]) 0 = false := by
  constructor <;> rfl

/-- Claim C2 as amended: the returned ranges (with a `None` end standing for
L) are one per non-empty header cell — the begins are exactly the non-empty
header indices, in strictly increasing order — and they exactly cover
`[i0, L)` with no gaps and no overlaps, where `i0` is the index of the FIRST
non-empty header cell (so they cover `[0, L)` exactly when the first header
cell is non-empty); for an entirely empty header row the result is empty. -/
theorem C2_series_splits_cover_from_first (hs : List String) :
    ((∀ h ∈ hs, h = "") → series_splits_resolved hs = []) ∧
    (series_splits_resolved hs).map Prod.fst = nonemptyIndices hs ∧
    List.Chain' (· < ·) (nonemptyIndices hs) ∧
    (∀ i, i ∈ nonemptyIndices hs ↔ (i < hs.length ∧ hs.getD i "" ≠ "")) ∧
    (∀ i0, (nonemptyIndices hs).head? = some i0 →
      coversInOrder hs.length (series_splits_resolved hs) i0 = true) := by
  have hmem := mem_nonemptyIndicesAux hs 0
  have hmem' : ∀ x, x ∈ nonemptyIndices hs ↔ (x < hs.length ∧ hs.getD x "" ≠ "") := by
    intro x
    rw [nonemptyIndices, hmem x]
    constructor
    · rintro ⟨j, hj, rfl, hne⟩
      exact ⟨by omega, by simpa using hne⟩
    · rintro ⟨hx, hne⟩
      exact ⟨x, hx, by omega, hne⟩
  obtain ⟨hchain, hbounds⟩ := nonemptyIndicesAux_chain_bounds hs 0
  refine ⟨?_, ?_, hchain, hmem', ?_⟩
  · intro hall
    have hnil : nonemptyIndices hs = [] := by
      cases hni : nonemptyIndices hs with
      | nil => rfl
      | cons a l =>
        exfalso
        have ha : a ∈ nonemptyIndices hs := hni ▸ List.mem_cons_self a l
        obtain ⟨haL, hane⟩ := (hmem' a).mp ha
        apply hane
        rw [List.getD_eq_getElem hs "" haL]
        exact hall _ (List.getElem_mem haL)
    rw [series_splits_resolved]
    rw [get_series_splits]
    simp [hnil, zipLongestPairs]
  · exact zipLongestPairs_resolved_map_fst hs.length (nonemptyIndices hs)
  · intro i0 hh
    exact coversInOrder_zipLongest hs.length (nonemptyIndices hs) hchain
      (fun x hx => ((hmem' x).mp hx).1) i0 hh

/-- Witness for the amended C2: with header row `["a", "", "b"]` the ranges
cover `[0, 3)` starting at the first non-empty index 0. -/
theorem C2_series_splits_cover_witness :
    coversInOrder 3 (series_splits_resolved ["a", "", "b"]) 0 = true :=
  (C2_series_splits_cover_from_first ["a", "", "b"]).2.2.2.2 0 rfl

/-! ## Claims about _get_biologic_splits (C1) -/

namespace Zilien

lemma takeWhile_all_eq (x : Int) :
    ∀ (xs : List Int) (i : Nat),
      i < (xs.takeWhile (fun y => y == x)).length → xs[i]? = some x := by
  intro xs
  induction xs with
  | nil => intro i hi; simp [List.takeWhile] at hi
  | cons z zs ih =>
    intro i hi
    rw [List.takeWhile] at hi
    cases hz : z == x with
    | false => rw [hz] at hi; simp at hi
    | true =>
      rw [hz] at hi
      simp only [List.length_cons] at hi
      match i with
      | 0 => simp [List.getElem?_cons_zero, eq_of_beq hz]
      | i' + 1 =>
        rw [List.getElem?_cons_succ]
        exact ih i' (by omega)

lemma drop_takeWhile_length (x : Int) :
    ∀ xs : List Int,
      xs.drop ((xs.takeWhile (fun y => y == x)).length) =
        xs.dropWhile (fun y => y == x) := by
  intro xs
  induction xs with
  | nil => rfl
  | cons z zs ih =>
    rw [List.takeWhile, List.dropWhile]
    cases hz : z == x with
    | false => simp
    | true => simpa using ih

lemma dropWhile_head_false (x y : Int) :
    ∀ xs : List Int,
      (xs.dropWhile (fun y' => y' == x)).head? = some y → (y == x) = false := by
  intro xs
  induction xs with
  | nil => intro h; cases h
  | cons z zs ih =>
    rw [List.dropWhile]
    cases hz : z == x with
    | false =>
      intro h
      simp only [List.head?_cons, Option.some.injEq] at h
      rw [h] at hz
      exact hz
    | true => exact ih

lemma getD_of_getElem? (l : List Int) (n : Nat) (x : Int)
    (h : l[n]? = some x) : l.getD n 0 = x := by
  simp [List.getD_eq_getElem?_getD, h]

lemma biologicSplitsAux_nil (fuel index : Nat) :
    biologicSplitsAux fuel index [] = [] := by
  cases fuel <;> rfl

lemma biologicSplitsAux_sound (keys : List Int) :
    ∀ (fuel : Nat) (l : List Int), l.length ≤ fuel →
      ∀ index, index ≤ keys.length → keys.drop index = l →
        coversInOrder keys.length (biologicSplitsAux fuel index l) index = true ∧
        (∀ be ∈ biologicSplitsAux fuel index l,
          runConstantIn keys be.1 be.2 = true) ∧
        runsMaximal keys (biologicSplitsAux fuel index l) = true := by
  intro fuel
  induction fuel with
  | zero =>
    intro l hl index hile hdrop
    have : l = [] := List.length_eq_zero.mp (by omega)
    subst this
    have hidx : index = keys.length := by
      have := congrArg List.length hdrop
      rw [List.length_drop] at this
      simp only [List.length_nil] at this
      omega
    simp [biologicSplitsAux, coversInOrder, runsMaximal, hidx]
  | succ m ih =>
    intro l hl index hile hdrop
    match l with
    | [] =>
      have hidx : index = keys.length := by
        have := congrArg List.length hdrop
        rw [List.length_drop] at this
        simp only [List.length_nil] at this
        omega
      simp [biologicSplitsAux, coversInOrder, runsMaximal, hidx]
    | x :: xs =>
      have hlen : keys.length = index + xs.length + 1 := by
        have := congrArg List.length hdrop
        rw [List.length_drop] at this
        simp only [List.length_cons] at this
        omega
      have hxsm : xs.length ≤ m := by
        simp only [List.length_cons] at hl
        omega
      have hr : (xs.takeWhile (fun y => y == x)).length ≤ xs.length :=
        (List.takeWhile_sublist _).length_le
      set r := (xs.takeWhile (fun y => y == x)).length with hrdef
      -- fact A: all keys in [index, index + r] equal x
      have factA : ∀ i, i ≤ r → keys[index + i]? = some x := by
        intro i hi
        have hdropi : keys[index + i]? = (x :: xs)[i]? := by
          rw [← hdrop, List.getElem?_drop]
        rw [hdropi]
        cases i with
        | zero => simp
        | succ i' =>
          rw [List.getElem?_cons_succ]
          exact takeWhile_all_eq x xs i' (by omega)
      -- the recursive tail
      have hdrop' : keys.drop (index + r + 1) = xs.drop r := by
        have h1 : keys.drop (index + r + 1) = (keys.drop index).drop (r + 1) := by
          rw [List.drop_drop]
          congr 1
        rw [h1, hdrop]
        simp [List.drop_succ_cons]
      obtain ⟨ihc, ihr, ihm⟩ :=
        ih (xs.drop r) (by rw [List.length_drop]; omega) (index + r + 1)
          (by omega) hdrop'
      have hunfold : biologicSplitsAux (m + 1) index (x :: xs) =
          (index, index + r + 1) ::
            biologicSplitsAux m (index + r + 1) (xs.drop r) := rfl
      refine ⟨?_, ?_, ?_⟩
      · rw [hunfold]
        simp only [coversInOrder, beq_self_eq_true, Bool.true_and, Bool.and_eq_true,
          decide_eq_true_eq]
        exact ⟨by omega, ihc⟩
      · rw [hunfold]
        intro be hbe
        rcases List.mem_cons.mp hbe with rfl | hbe'
        · -- the head run is constant
          rw [runConstantIn]
          simp only [List.all_eq_true, List.mem_range]
          intro i hi
          have hib : i ≤ r := by omega
          have h1 : keys.getD (index + i) 0 = x := getD_of_getElem? _ _ _ (factA i hib)
          have h0 : keys.getD index 0 = x := by
            have := getD_of_getElem? _ _ _ (factA 0 (Nat.zero_le r))
            simpa using this
          rw [h1, h0]
          exact beq_self_eq_true x
        · exact ihr be hbe'
      · rw [hunfold]
        cases hrestnil : xs.drop r with
        | nil =>
          rw [biologicSplitsAux_nil]
          rfl
        | cons y ys =>
          -- fuel m is positive: the tail still holds y :: ys
          have hm1 : 1 ≤ m := by
            have := congrArg List.length hrestnil
            rw [List.length_drop] at this
            simp only [List.length_cons] at this
            omega
          obtain ⟨m', rfl⟩ : ∃ m', m = m' + 1 := ⟨m - 1, by omega⟩
          -- key at the boundary differs from the last key of the head run
          have hyhead : (xs.drop r)[0]? = some y := by rw [hrestnil]; simp
          have hyk : keys[index + r + 1]? = some y := by
            have h2 : keys[index + r + 1]? = (keys.drop (index + r + 1))[0]? := by
              rw [List.getElem?_drop]
            rw [h2, hdrop', hyhead]
          have hynex : (y == x) = false := by
            apply dropWhile_head_false x y xs
            rw [← drop_takeWhile_length, ← hrdef, hrestnil]
            rfl
          have hlast : keys.getD (index + r) 0 = x :=
            getD_of_getElem? _ _ _ (factA r (le_refl r))
          have hbound : keys.getD (index + r + 1) 0 = y := getD_of_getElem? _ _ _ hyk
          have hunfold2 : biologicSplitsAux (m' + 1) (index + r + 1) (y :: ys) =
              (index + r + 1,
                index + r + 1 + ((ys.takeWhile (fun y' => y' == y)).length) + 1) ::
              biologicSplitsAux m'
                (index + r + 1 + ((ys.takeWhile (fun y' => y' == y)).length) + 1)
                (ys.drop ((ys.takeWhile (fun y' => y' == y)).length)) := rfl
          rw [hrestnil] at ihm
          rw [hunfold2] at ihm ⊢
          simp only [runsMaximal, Bool.and_eq_true, Bool.not_eq_true']
          refine ⟨?_, ihm⟩
          have harith : index + r + 1 - 1 = index + r := by omega
          rw [harith, hlast, hbound]
          cases hxy : x == y with
          | false => rfl
          | true =>
            exfalso
            have hxeq : x = y := eq_of_beq hxy
            rw [hxeq] at hynex
            simp at hynex

end Zilien

/-- Claim C1: `_get_biologic_splits` partitions the row indices of any
composite-key vector into maximal contiguous runs of constant key, returned
as (begin, end) pairs in original row order (a key recurring after an
intervening different key starts a new, later run); and on the key vector
built from experiment numbers [5,5,5,7,7,5] and technique numbers
[1,1,1,2,2,1] (composite keys [5001,5001,5001,7002,7002,5001]) the result is
[(0,3), (3,5), (5,6)]. -/
theorem C1_biologic_splits_maximal_runs :
    (∀ keys : List Int,
      coversInOrder keys.length (get_biologic_splits keys) 0 = true ∧
      (∀ be ∈ get_biologic_splits keys, runConstantIn keys be.1 be.2 = true) ∧
      runsMaximal keys (get_biologic_splits keys) = true) ∧
    splitVector 6 [5, 5, 5, 7, 7, 5] [1, 1, 1, 2, 2, 1] =
      [5001, 5001, 5001, 7002, 7002, 5001] ∧
    get_biologic_splits [5001, 5001, 5001, 7002, 7002, 5001] =
      [(0, 3), (3, 5), (5, 6)] := by
  refine ⟨?_, by decide, by decide⟩
  intro keys
  exact biologicSplitsAux_sound keys keys.length keys (le_refl _) 0
    (Nat.zero_le _) rfl

/-- Witness for C1: on the spec's example key vector, the run (0, 3) reported
by the splitter is indeed constant. -/
theorem C1_biologic_splits_witness :
    runConstantIn [5001, 5001, 5001, 7002, 7002, 5001] 0 3 = true :=
  (C1_biologic_splits_maximal_runs.1 [5001, 5001, 5001, 7002, 7002, 5001]).2.1
    (0, 3) (by decide)

/-! ## Embedding of src/ixdat/techniques/cv.py (redefine_cycle) -/

namespace CV

/-- `cycle_vec[n:] = c`: overwrite the suffix of the vector from index `n`
with the value `c`. -/
def setSuffix (vec : List Nat) (n c : Nat) : List Nat :=
  vec.take n ++ List.replicate (vec.length - n) c

/-- The while-loop of `redefine_cycle` (the `start_potential` branch),
embedded with explicit state (current index `n`, cycle counter `c`, cycle
vector `vec`) and a fuel argument: each completed iteration strictly
increases `n`, so any fuel of at least `N + 1` gives the untruncated run.
`w.drop n |>.findIdx?` models `np.argmax` of the boolean mask on `v[n:]`
guarded by `True not in mask`. -/
def cycleLoop (w : List Int) (sp : Int) (Np N : Nat) :
    Nat → Nat → Nat → List Nat → List Nat
  | 0, _, _, vec => vec
  | fuel + 1, n, c, vec =>
    if n < N then
      match (w.drop n).findIdx? (fun y => decide (y < sp)) with
      | none => vec
      | some k =>
        match (w.drop (n + k + Np)).findIdx? (fun y => decide (sp < y)) with
        | none => vec
        | some j =>
          cycleLoop w sp Np N fuel (n + k + Np + j + Np) (c + 1)
            (setSuffix vec (n + k + Np + j) (c + 1))
    else vec

/-- `redefine_cycle` with a given `start_potential`: normalize the direction
(negate both signal and threshold when `redox` is false), start from
`cycle_vec = np.zeros(len(t))`, `n = 0`, `c = 0`, and run the scan loop. -/
def redefine_cycle_vec (t v : List Int) (start_potential : Int) (redox : Bool)
    (N_points : Nat) : List Nat :=
  let sp := if redox then start_potential else -start_potential
  let w := if redox then v else v.map (fun y => -y)
  cycleLoop w sp N_points t.length (t.length + 1) 0 0 (List.replicate t.length 0)

lemma sorted_replicate (n c : Nat) : List.Sorted (· ≤ ·) (List.replicate n c) := by
  induction n with
  | zero => simp
  | succ m ih =>
    rw [List.replicate_succ, List.sorted_cons]
    exact ⟨fun b hb => le_of_eq (List.eq_of_mem_replicate hb).symm, ih⟩

lemma setSuffix_length (vec : List Nat) (n c : Nat) :
    (setSuffix vec n c).length = vec.length := by
  rw [setSuffix, List.length_append, List.length_take, List.length_replicate]
  omega

lemma setSuffix_sorted (vec : List Nat) (n c : Nat)
    (hs : List.Sorted (· ≤ ·) vec) (hb : ∀ x ∈ vec, x ≤ c) :
    List.Sorted (· ≤ ·) (setSuffix vec n c) := by
  rw [setSuffix, List.Sorted, List.pairwise_append]
  refine ⟨hs.sublist (List.take_sublist n vec), sorted_replicate _ c, ?_⟩
  intro a ha b hbmem
  have ha' : a ∈ vec := (List.take_sublist n vec).subset ha
  have hbc : b = c := List.eq_of_mem_replicate hbmem
  rw [hbc]
  exact hb a ha'

lemma setSuffix_mem_le (vec : List Nat) (n c : Nat) (hb : ∀ x ∈ vec, x ≤ c) :
    ∀ x ∈ setSuffix vec n c, x ≤ c := by
  intro x hx
  rw [setSuffix, List.mem_append] at hx
  rcases hx with hx | hx
  · exact hb x ((List.take_sublist n vec).subset hx)
  · exact le_of_eq (List.eq_of_mem_replicate hx)

lemma setSuffix_getElem_lt (vec : List Nat) (n c i : Nat) (h : i < n) :
    (setSuffix vec n c)[i]? = vec[i]? := by
  by_cases hi : i < vec.length
  · rw [setSuffix, List.getElem?_append, List.length_take, if_pos (by omega)]
    exact List.getElem?_take_of_lt h
  · have h1 : (setSuffix vec n c)[i]? = none :=
      List.getElem?_eq_none (by rw [setSuffix_length]; omega)
    have h2 : vec[i]? = none := List.getElem?_eq_none (by omega)
    rw [h1, h2]

lemma cycleLoop_props (w : List Int) (sp : Int) (Np N : Nat) :
    ∀ (fuel n c : Nat) (vec : List Nat),
      List.Sorted (· ≤ ·) vec → (∀ x ∈ vec, x ≤ c) →
      (cycleLoop w sp Np N fuel n c vec).length = vec.length ∧
      List.Sorted (· ≤ ·) (cycleLoop w sp Np N fuel n c vec) ∧
      ∀ i, i < n + Np → (cycleLoop w sp Np N fuel n c vec)[i]? = vec[i]? := by
  intro fuel
  induction fuel with
  | zero =>
    intro n c vec hs hb
    exact ⟨rfl, hs, fun i _ => rfl⟩
  | succ f ih =>
    intro n c vec hs hb
    rw [cycleLoop]
    by_cases hn : n < N
    · rw [if_pos hn]
      split
      · exact ⟨rfl, hs, fun i _ => rfl⟩
      · rename_i k hk
        split
        · exact ⟨rfl, hs, fun i _ => rfl⟩
        · rename_i j hj
          have hb1 : ∀ x ∈ vec, x ≤ c + 1 := fun x hx => le_trans (hb x hx) (Nat.le_succ c)
          have hvs : List.Sorted (· ≤ ·) (setSuffix vec (n + k + Np + j) (c + 1)) :=
            setSuffix_sorted vec _ _ hs hb1
          have hvb : ∀ x ∈ setSuffix vec (n + k + Np + j) (c + 1), x ≤ c + 1 :=
            setSuffix_mem_le vec _ _ hb1
          obtain ⟨hl, hsrt, hpres⟩ :=
            ih (n + k + Np + j + Np) (c + 1) (setSuffix vec (n + k + Np + j) (c + 1))
              hvs hvb
          refine ⟨hl.trans (setSuffix_length vec _ _), hsrt, ?_⟩
          intro i hi
          rw [hpres i (by omega), setSuffix_getElem_lt vec _ _ _ (by omega)]
    · rw [if_neg hn]
      exact ⟨rfl, hs, fun i _ => rfl⟩

end CV

open CV

/-- Claim C5: for every input (time array, potential array of the same
length, start potential, redox direction, N_points ≥ 1), the cycle-index
vector has the same length as the time array, is non-decreasing, and its
first element is 0.  (Integer-valuedness is by construction: the embedded
vector lives over ℕ, mirroring the integer counter `c` assigned into the
float vector.) -/
theorem C5_cycle_vec_wellformed (t v : List Int) (start_potential : Int)
    (redox : Bool) (N_points : Nat) (hNp : 1 ≤ N_points)
    (_hlen : t.length = v.length) :
    (redefine_cycle_vec t v start_potential redox N_points).length = t.length ∧
    List.Sorted (· ≤ ·) (redefine_cycle_vec t v start_potential redox N_points) ∧
    (0 < t.length →
      (redefine_cycle_vec t v start_potential redox N_points)[0]? = some 0) := by
  obtain ⟨hl, hsrt, hpres⟩ :=
    cycleLoop_props (if redox then v else v.map (fun y => -y))
      (if redox then start_potential else -start_potential) N_points t.length
      (t.length + 1) 0 0 (List.replicate t.length 0)
      (sorted_replicate t.length 0)
      (fun x hx => le_of_eq (List.eq_of_mem_replicate hx))
  refine ⟨by simpa [redefine_cycle_vec] using hl, by simpa [redefine_cycle_vec] using hsrt, ?_⟩
  intro hpos
  have h0 := hpres 0 (by omega)
  have hrep : (List.replicate t.length 0)[0]? = some 0 := by
    obtain ⟨m, hm⟩ : ∃ m, t.length = m + 1 := ⟨t.length - 1, by omega⟩
    rw [hm, List.replicate_succ]
    simp
  simp only [redefine_cycle_vec]
  rw [h0, hrep]

/-- Witness for C5 at a concrete two-sample cyclic voltammogram. -/
theorem C5_cycle_vec_wellformed_witness :
    (redefine_cycle_vec [0, 1] [-1, 1] 0 true 1).length = ([0, 1] : List Int).length ∧
    List.Sorted (· ≤ ·) (redefine_cycle_vec [0, 1] [-1, 1] 0 true 1) ∧
    (0 < ([0, 1] : List Int).length →
      (redefine_cycle_vec [0, 1] [-1, 1] 0 true 1)[0]? = some 0) :=
  C5_cycle_vec_wellformed [0, 1] [-1, 1] 0 true 1 (by decide) (by decide)

/-- Claim C4 (evaluation at the failing input): with potential
[1, -1, 1, 1, 1, 1, 1, 1], start potential 0, anodic direction and
N_points = 5, the scan registers a new cycle (the output climbs to 1 at
sample 6) even though the signal is behind the threshold at only ONE sample
in total — there is no run of 5 consecutive behind-threshold samples.  The
code advances by N_points after the FIRST behind sample without checking
that the signal stays behind, contradicting both the claim and the
function's own docstring and comments (a dead-time debounce, not a
consecutive-run debounce). -/
theorem C4_debounce_run_not_enforced :
    redefine_cycle_vec [1, -1, 1, 1, 1, 1, 1, 1] [1, -1, 1, 1, 1, 1, 1, 1] 0 true 5 =
      [0, 0, 0, 0, 0, 0, 1, 1] ∧
    (([1, -1, 1, 1, 1, 1, 1, 1] : List Int).filter (fun y => decide (y < 0))).length
      = 1 := by
  refine ⟨by decide, by decide⟩

end IxdatSpec
